import Mathlib

/-!
Verification of the tuning-schedule engine of ji-performer.

Shallow embedding of src/tuner.rs and the note dispatch portions of
src/main.rs.  Rust f64 times and cents are modelled as rationals; the
fallible operations (Rust panics) are modelled with Except String.
-/

/-- Pitch bend range in plus or minus semitones (PB_RANGE in src/main.rs). -/
def PB_RANGE : ℚ := 4

/-- USE_OCT_RED_MONZOS in src/tuner.rs: whether to use octave reduced monzos. -/
def USE_OCT_RED_MONZOS : Bool := true

/-- Index of a prime in the PRIMES table of src/tuner.rs: the number of primes
below p (2 to 0, 3 to 1, 5 to 2, and so on). -/
def primeIndex (p : ℕ) : ℕ := ((List.range p).filter (fun q => Nat.Prime q)).length

/-- Membership in the PRIMES hash map of src/tuner.rs, which holds the first
1000 primes: p is a key exactly when it is prime and fewer than 1000 primes lie
below it. -/
def inPrimeTable (p : ℕ) : Prop := Nat.Prime p ∧ primeIndex p < 1000

instance (p : ℕ) : Decidable (inPrimeTable p) := by
  unfold inPrimeTable; infer_instance

/-- PRIMES_OCTAVES in src/tuner.rs maps a prime p to the floor of its base-2
logarithm (computed there in f64, exact for integers of this size). -/
def primeOctaves (p : ℕ) : ℕ := Nat.log2 p

/-- The exponent of p in n, computed as the number of k with p ^ (k + 1)
dividing n; for a prime p and positive n this is the usual p-adic valuation
(kernel-computable formulation). -/
def primeExp (p n : ℕ) : ℕ := ((List.range n).filter (fun k => p ^ (k + 1) ∣ n)).length

/-- The distinct prime factors of n with their exponents, in increasing order;
models iteration over primefactor::PrimeFactors::from(n) in src/tuner.rs. -/
def primeFactorsWithExp (n : ℕ) : List (ℕ × ℕ) :=
  ((List.range (n + 1)).filter (fun p => Nat.Prime p ∧ p ∣ n)).map
    (fun p => (p, primeExp p n))

/-- One factor loop of JIRatio monzo for Rational (src/tuner.rs lines 88-126):
for each factor, grow the vector on demand, add sign times the exponent at the
prime index, and accumulate the octave-reduction offset for primes other
than 2.  A prime missing from the table models the expect panic. -/
def applyFactors (sign : ℤ) : List (ℕ × ℕ) → List ℤ × ℤ → Except String (List ℤ × ℤ)
  | [], acc => .ok acc
  | (p, e) :: rest, (mz, octs) =>
    if inPrimeTable p then
      let pIdx := primeIndex p
      let mz1 := if mz.length ≤ pIdx then mz ++ List.replicate (pIdx + 1 - mz.length) 0 else mz
      let mz2 := mz1.set pIdx (mz1.getD pIdx 0 + sign * e)
      let octs1 := if USE_OCT_RED_MONZOS ∧ p ≠ 2 then octs + (primeOctaves p : ℤ) * (sign * e)
                   else octs
      applyFactors sign rest (mz2, octs1)
    else .error "Prime not found in PRIMES map"

/-- JIRatio monzo for Rational (src/tuner.rs lines 66-131): convert a rational
to monzo form.  Returns ok none for the sentinel value 0 (the None of the
source); .error models the panics (negative fraction, prime missing from the
table).  The final set is the closing monzo[0] += oct_offset. -/
def monzo (q : ℚ) : Except String (Option (List ℤ)) :=
  if q = 0 then .ok none
  else if q.num < 0 then .error "No negative fractions allowed"
  else
    match applyFactors 1 (primeFactorsWithExp q.num.natAbs) ([0], 0) with
    | .error e => .error e
    | .ok (mz1, octs1) =>
      match applyFactors (-1) (primeFactorsWithExp q.den) (mz1, octs1) with
      | .error e => .error e
      | .ok (mz2, octs2) => .ok (some (mz2.set 0 (mz2.getD 0 0 + octs2)))

/-- TuningData of src/tuner.rs, restricted to the fields the claims touch.
The pitch_bends wire values and midi_messages byte strings are deterministic
serializations of pitch_bend_percents and are not modelled. -/
structure TuningData where
  tuning : List ℚ
  time : ℚ
  monzos : List (Option (List ℤ))
  pitch_bend_percents : List (Option ℚ)
deriving DecidableEq

/-- The normalized pitch bend computed in TuningData::new (src/tuner.rs line
208): (cents - 100 * i) / 100 / PB_RANGE. -/
def pbRangePercent (cents : ℚ) (i : ℕ) : ℚ := (cents - 100 * i) / 100 / PB_RANGE

/-- Loop body of TuningData::new (src/tuner.rs lines 193-225) for semitone
class i: recompute the monzo, then, when the ratio has a cents value, check
the normalized bend and panic (.error) when it lies outside [-1, 1].
centsOf abstracts JIRatio cents, an f64 logarithm in the source, hence a
parameter of the embedding.  The non-increasing-cents warning only prints and
is not modelled. -/
def newBody (centsOf : ℚ → Option ℚ) (tuning : List ℚ) (i : ℕ) :
    Except String (Option (List ℤ) × Option ℚ) :=
  match monzo (tuning.getD i 0) with
  | .error e => .error e
  | .ok mz =>
    match centsOf (tuning.getD i 0) with
    | none => .ok (mz, none)
    | some cents =>
      if pbRangePercent cents i > 1 ∨ pbRangePercent cents i < -1 then
        .error "Pitch bend range exceeded"
      else
        .ok (mz, some (pbRangePercent cents i))

/-- Effectful map in the Except monad: the accumulation pattern of the loops in
src/tuner.rs, stopping at the first panic. -/
def mapExcept {α : Type} (f : ℕ → Except String α) : List ℕ → Except String (List α)
  | [] => .ok []
  | i :: is =>
    match f i with
    | .error e => .error e
    | .ok a =>
      match mapExcept f is with
      | .error e => .error e
      | .ok rest => .ok (a :: rest)

/-- TuningData::new (src/tuner.rs lines 188-263): for each class 0..11 compute
the monzo and the checked normalized bend (panic order matches the single
source loop), then assemble the record. -/
def TuningData.new (centsOf : ℚ → Option ℚ) (tuning : List ℚ) (time : ℚ) :
    Except String TuningData :=
  match mapExcept (newBody centsOf tuning) (List.range 12) with
  | .error e => .error e
  | .ok res =>
    .ok { tuning := tuning, time := time,
          monzos := res.map Prod.fst,
          pitch_bend_percents := res.map Prod.snd }

/-- The array-building loop of the td helper (src/tuner.rs lines 293-303):
write tuning[i] * offset at output slot (i + root) % 12, then halve that slot
when i + root wrapped past the octave. -/
def tdTuningArray (root : ℕ) (offset : ℚ) (tuning : List ℚ) : List ℚ :=
  (List.range 12).foldl
    (fun acc i =>
      let semitone := i + root
      let acc1 := acc.set (semitone % 12) (tuning.getD i 0 * offset)
      if 12 ≤ semitone then
        acc1.set (semitone % 12) (acc1.getD (semitone % 12) 0 / 2)
      else acc1)
    (List.replicate 12 0)

/-- td (src/tuner.rs lines 290-306): helper building a TuningData from a
tuning listed relative to root with a global offset; asserts root < 12. -/
def td (centsOf : ℚ → Option ℚ) (time : ℚ) (root : ℕ) (offset : ℚ)
    (tuning : List ℚ) : Except String TuningData :=
  if root < 12 then TuningData.new centsOf (tdTuningArray root offset tuning) time
  else .error "Root must be in range"

/-- Tuner of src/tuner.rs: cursor into the tunings list; -1 (the curr_tuning_idx
isize sentinel) means no tuning has been applied yet. -/
structure Tuner where
  curr_tuning_idx : ℤ
  tunings : List TuningData
deriving DecidableEq

/-- The as-usize cast of an isize: two's-complement wrap into 0..2^64. -/
def isizeToUsize (i : ℤ) : ℕ := (i % (2 ^ 64 : ℤ)).toNat

/-- Insertion of a tuning after every entry with an equal or smaller time;
used to model the stable sort below. -/
def insertByTime (a : TuningData) : List TuningData → List TuningData
  | [] => [a]
  | b :: l => if a.time < b.time then a :: b :: l else b :: insertByTime a l

/-- Stable sort by time, modelling sorted_tunings.sort_by on partial_cmp of the
times (src/tuner.rs line 336); Rust sort_by is stable and total on these
NaN-free times. -/
def insertionSortByTime (l : List TuningData) : List TuningData :=
  l.foldr insertByTime []

/-- The validation loop of Tuner::new (src/tuner.rs lines 328-340): panic on a
negative time; report ok true when a time decreases, at which point the source
sorts and breaks (later entries are no longer checked). -/
def timesCheck : List TuningData → ℚ → Except String Bool
  | [], _ => .ok false
  | a :: rest, curr =>
    if a.time < 0 then .error "Tuning time must be non-negative"
    else if a.time < curr then .ok true
    else timesCheck rest a.time

/-- Tuner::new (src/tuner.rs lines 318-346): reject an empty list, reject a
sentinel 0 ratio in the entry at position 0 of the input as given, then run the
time validation, sorting the whole list when an out-of-order time is found. -/
def Tuner.new (tunings : List TuningData) : Except String Tuner :=
  match tunings with
  | [] => .error "Must have at least one tuning!"
  | first :: _ =>
    if first.tuning.any (fun x => x == 0) then
      .error "First tuning data cannot use 0-value elements!"
    else
      match timesCheck tunings 0 with
      | .error e => .error e
      | .ok true => .ok ⟨-1, insertionSortByTime tunings⟩
      | .ok false => .ok ⟨-1, tunings⟩

/-- The part of Tuner::update after the cursor cast (src/tuner.rs lines
360-376): early return at the last tuning, the time-monotonicity panic, and the
single-step advance.  The source computes tunings.len() - 1 in usize; Tuner::new
guarantees a non-empty list, where truncated subtraction agrees with it. -/
def Tuner.updateRest (tu : Tuner) (time : ℚ) : Except String (Option TuningData × Tuner) :=
  if isizeToUsize tu.curr_tuning_idx = tu.tunings.length - 1 then .ok (none, tu)
  else
    match tu.tunings.get? (isizeToUsize tu.curr_tuning_idx) with
    | none => .error "index out of bounds"
    | some tdc =>
      if time < tdc.time then
        .error "Time went backwards! Make sure tunings are sorted by increasing time."
      else
        match tu.tunings.get? (isizeToUsize tu.curr_tuning_idx + 1) with
        | none => .error "index out of bounds"
        | some tdn =>
          if tdn.time ≤ time then
            .ok (some tdn, { tu with curr_tuning_idx := tu.curr_tuning_idx + 1 })
          else .ok (none, tu)

/-- Tuner::update (src/tuner.rs lines 351-377): at cursor -1, apply the first
tuning once time reaches it; when time is still earlier, the source falls
through to the code modelled by updateRest with the cursor still -1, whose
as-usize cast makes the subsequent vector index out of bounds. -/
def Tuner.update (tu : Tuner) (time : ℚ) : Except String (Option TuningData × Tuner) :=
  if tu.curr_tuning_idx = -1 then
    match tu.tunings.get? 0 with
    | none => .error "index out of bounds"
    | some td0 =>
      if td0.time ≤ time then
        .ok (some td0, { tu with curr_tuning_idx := tu.curr_tuning_idx + 1 })
      else tu.updateRest time
  else tu.updateRest time

/-- Signed 12-edo distance from A4 of a MIDI key (src/main.rs line 311):
key as i32 minus 69. -/
def edostepsFromA4 (key : ℕ) : ℤ := (key : ℤ) - 69

/-- Output channel for note-on and note-off (src/main.rs lines 312 and 357):
edosteps_from_a4.rem_euclid(12), cast back to an unsigned channel number.
The integer percent operator here is the Euclidean remainder, matching
rem_euclid. -/
def channelOfKey (key : ℕ) : ℕ := ((edostepsFromA4 key) % 12).toNat

/-- Semitone class used for the tuning lookup (src/main.rs line 319):
(key + 3) % 12, so that 0 is A, 1 is Bb, and so on. -/
def semitoneMod12 (key : ℕ) : ℕ := (key + 3) % 12

/-- Octave distance from A4 (src/main.rs line 324):
edosteps_from_a4.div_euclid(12).  Integer division on ℤ here is the Euclidean
division, matching div_euclid. -/
def octavesFromA4 (key : ℕ) : ℤ := (edostepsFromA4 key) / 12

/-- Note-on monzo dispatch (src/main.rs lines 319-330): clone the cached monzo
of the key's semitone class and add the octave distance from A4 into slot 0,
pushing a new sole element when the cached monzo is empty. -/
def noteOnMonzo (curr_monzos : List (List ℤ)) (key : ℕ) : List ℤ :=
  let mz := curr_monzos.getD (semitoneMod12 key) []
  if mz.length = 0 then [octavesFromA4 key]
  else mz.set 0 (mz.getD 0 0 + octavesFromA4 key)

/-- What the scheduler does right after a visualizer send returns. -/
inductive SendOutcome where
  | continueLogged : SendOutcome
  | continueOk : SendOutcome
  | abortProcess : String → SendOutcome
deriving DecidableEq

/-- Note-on visualizer send handling in the main playback loop (src/main.rs
lines 339-354): a send error is logged with a WARN line and the loop keeps
going; a success just keeps going. -/
def noteOnVisSendHandler (res : Except String Unit) : SendOutcome :=
  match res with
  | .ok _ => .continueOk
  | .error _ => .continueLogged

/-- Note-off visualizer send handling (src/main.rs lines 363-376): same
shape as the note-on site. -/
def noteOffVisSendHandler (res : Except String Unit) : SendOutcome :=
  match res with
  | .ok _ => .continueOk
  | .error _ => .continueLogged

/-- Controller-change visualizer send handling (src/main.rs lines 387-392):
same shape as the note-on site. -/
def ccVisSendHandler (res : Except String Unit) : SendOutcome :=
  match res with
  | .ok _ => .continueOk
  | .error _ => .continueLogged

/-- Visualizer send handling in reset (src/main.rs lines 425-434): the send
result is unwrapped, so an error aborts the process. -/
def resetVisSendHandler (res : Except String Unit) : SendOutcome :=
  match res with
  | .ok _ => .continueOk
  | .error e => .abortProcess e

/-- Specification-side description: the signed net exponent of the prime p in
the rational q, numerator exponents counted positively and denominator
exponents negatively. -/
def netExp (q : ℚ) (p : ℕ) : ℤ :=
  (q.num.natAbs.factorization p : ℤ) - (q.den.factorization p : ℤ)

/-- Specification-side description: the octave-reduction correction added into
monzo index 0, namely floor(log2 p) * e summed over every prime p other than 2
occurring in q, where e is the signed net exponent of p. -/
def octCorrection (q : ℚ) : ℤ :=
  ∑ p ∈ q.num.natAbs.primeFactors ∪ q.den.primeFactors,
    (if p ≠ 2 then (Nat.log2 p : ℤ) * netExp q p else 0)

/-- A sentinel-free tuning entry (ratio 1 on all twelve classes) at time t;
concrete data for the schedule of the update-sequence claims. -/
def tdAt (t : ℚ) : TuningData :=
  { tuning := List.replicate 12 1, time := t,
    monzos := List.replicate 12 (some [0]),
    pitch_bend_percents := List.replicate 12 (some 0) }

/-- A freshly constructed three-entry schedule with activation times 0, 5, 8
and a sentinel-free first entry (cursor still -1). -/
def tunerABC : Tuner := ⟨-1, [tdAt 0, tdAt 5, tdAt 8]⟩

/-- The same schedule with the cursor on entry 0. -/
def tunerABC0 : Tuner := ⟨0, [tdAt 0, tdAt 5, tdAt 8]⟩

/-- The same schedule with the cursor on entry 1. -/
def tunerABC1 : Tuner := ⟨1, [tdAt 0, tdAt 5, tdAt 8]⟩

/-- The same schedule with the cursor on the last entry. -/
def tunerABC2 : Tuner := ⟨2, [tdAt 0, tdAt 5, tdAt 8]⟩

/-- A sentinel-free entry at time 5: the input head of the unsorted schedule
below. -/
def tdLater : TuningData := tdAt 5

/-- An entry at time 0 whose class-0 ratio is the sentinel 0. -/
def tdZeroFirst : TuningData :=
  { tuning := (0 : ℚ) :: List.replicate 11 1, time := 0,
    monzos := List.replicate 12 none, pitch_bend_percents := List.replicate 12 none }

/-- Whether an Except value is a success; used to state panic-freedom
hypotheses decidably. -/
def exceptIsOk {α : Type} : Except String α → Bool
  | .ok _ => true
  | .error _ => false

/-- Proof-side bookkeeping for the applyFactors loop: the total exponent a
factor list contributes at prime index j. -/
def exps (F : List (ℕ × ℕ)) (j : ℕ) : ℤ :=
  (F.map (fun pe => if primeIndex pe.1 = j then (pe.2 : ℤ) else 0)).sum

/-- Proof-side bookkeeping for the applyFactors loop: the total
octave-reduction offset a factor list contributes. -/
def octsum (F : List (ℕ × ℕ)) : ℤ :=
  (F.map (fun pe => if pe.1 ≠ 2 then (primeOctaves pe.1 : ℤ) * pe.2 else 0)).sum

deriving instance DecidableEq for Except

/-- Claim C1: on the schedule with entries at times 0, 5, 8 and a sentinel-free
first entry, the claimed update sequence diverges at the very first call: with
the cursor still -1 and a negative query time, update does not return none but
panics with an out-of-bounds vector index (the -1 cursor is cast to usize).
From update(0) onwards the claimed sequence does hold, as the remaining
conjuncts evaluate. -/
theorem update_sequence_diverges_on_negative_time :
    tunerABC.update (Rat.divInt (-1) 1000) = .error "index out of bounds"
    ∧ tunerABC.update 0 = .ok (some (tdAt 0), tunerABC0)
    ∧ tunerABC0.update (Rat.divInt 4999 1000) = .ok (none, tunerABC0)
    ∧ tunerABC0.update 5 = .ok (some (tdAt 5), tunerABC1)
    ∧ tunerABC1.update 100 = .ok (some (tdAt 8), tunerABC2)
    ∧ tunerABC2.update 100 = .ok (none, tunerABC2)
    ∧ tunerABC2.update 200 = .ok (none, tunerABC2) := by
  decide

/-- Claim C3 counterexample: with the cursor on the last entry (activated at
time 8), a query at the earlier time 1 is not a fatal error as the claim
states: update returns ok none, because the last-entry early return runs before
the monotonicity check. -/
theorem update_regression_at_last_entry_not_fatal :
    tunerABC2.update 1 = .ok (none, tunerABC2) := by
  decide

/-- Claim C4: Tuner::new applies the sentinel check to the head of the input
list as given, before the automatic re-sort.  On the unsorted input
[tdLater (time 5, sentinel-free), tdZeroFirst (time 0, class 0 sentinel)]
construction succeeds, the list is re-sorted, and the first entry of the
resulting schedule contains the sentinel 0, violating the claimed invariant. -/
theorem new_accepts_sentinel_in_sorted_first_entry :
    Tuner.new [tdLater, tdZeroFirst] = .ok ⟨-1, [tdZeroFirst, tdLater]⟩
    ∧ tdZeroFirst.tuning.any (fun x => x == 0) = true := by
  decide

/-- Claim C9 counterexample: in the reset sequence (run before the playback
loop and on exit) a failed visualizer send is unwrapped and aborts the
process, contradicting the claim that every failed visualizer send is caught
and never aborts playback. -/
theorem reset_vis_send_failure_aborts :
    resetVisSendHandler (.error "channel closed") = .abortProcess "channel closed" := by
  rfl

/-- Claim C9 (amended): in the main playback loop every failed visualizer send
(note-on, note-off, controller-change sites) is caught and logged and the loop
continues; in the reset sequence a failed visualizer send aborts the process. -/
theorem vis_send_failure_handling (e : String) :
    noteOnVisSendHandler (.error e) = .continueLogged
    ∧ noteOffVisSendHandler (.error e) = .continueLogged
    ∧ ccVisSendHandler (.error e) = .continueLogged
    ∧ resetVisSendHandler (.error e) = .abortProcess e :=
  ⟨rfl, rfl, rfl, rfl⟩

/-- Claim C10: for every MIDI key in 0..=127, the output channel
(key - 69).rem_euclid(12) used for note-on and note-off equals the semitone
class (key + 3) % 12 used for the tuning lookup. -/
theorem channel_eq_semitone_class (key : ℕ) (_hkey : key ≤ 127) :
    channelOfKey key = semitoneMod12 key := by
  unfold channelOfKey semitoneMod12 edostepsFromA4
  omega

/-- Witness for channel_eq_semitone_class at key 60. -/
theorem channel_eq_semitone_class_witness :
    60 ≤ 127 ∧ channelOfKey 60 = semitoneMod12 60 :=
  ⟨by decide, channel_eq_semitone_class 60 (by decide)⟩

/-- Helper for claim C2: every successful updateRest leaves the schedule list
unchanged, advances the cursor by exactly one when it returns an entry, and
leaves the whole state untouched when it returns none. -/
theorem updateRest_step (tu : Tuner) (time : ℚ) (r : Option TuningData) (tu' : Tuner)
    (h : tu.updateRest time = .ok (r, tu')) :
    (r = none → tu' = tu)
    ∧ (∀ e, r = some e →
        tu'.curr_tuning_idx = tu.curr_tuning_idx + 1 ∧ tu'.tunings = tu.tunings) := by
  unfold Tuner.updateRest at h
  split at h
  · injection h with h1
    injection h1 with hr ht
    subst hr; subst ht
    exact ⟨fun _ => rfl, fun e he => Option.noConfusion he⟩
  · split at h
    · cases h
    · split at h
      · cases h
      · split at h
        · cases h
        · split at h
          · injection h with h1
            injection h1 with hr ht
            subst hr; subst ht
            exact ⟨fun hn => Option.noConfusion hn, fun e he => ⟨rfl, rfl⟩⟩
          · injection h with h1
            injection h1 with hr ht
            subst hr; subst ht
            exact ⟨fun _ => rfl, fun e he => Option.noConfusion he⟩

/-- Claim C2: a successful update advances the cursor by at most one position
(never more, even when the queried time has crossed several boundaries), an
entry is returned only together with a cursor advance of exactly one (so each
boundary yields its entry exactly once), and when none is returned the state is
unchanged, so a repeated call with the same time again returns none. -/
theorem update_single_step (tu : Tuner) (time : ℚ) (r : Option TuningData) (tu' : Tuner)
    (h : tu.update time = .ok (r, tu')) :
    (tu.curr_tuning_idx ≤ tu'.curr_tuning_idx
      ∧ tu'.curr_tuning_idx ≤ tu.curr_tuning_idx + 1)
    ∧ (∀ e, r = some e →
        tu'.curr_tuning_idx = tu.curr_tuning_idx + 1 ∧ tu'.tunings = tu.tunings)
    ∧ (r = none → tu' = tu ∧ tu'.update time = .ok (none, tu')) := by
  have key : (r = none → tu' = tu)
      ∧ (∀ e, r = some e →
          tu'.curr_tuning_idx = tu.curr_tuning_idx + 1 ∧ tu'.tunings = tu.tunings) := by
    unfold Tuner.update at h
    split at h
    · split at h
      · cases h
      · split at h
        · injection h with h1
          injection h1 with hr ht
          subst hr; subst ht
          exact ⟨fun hn => Option.noConfusion hn, fun e he => ⟨rfl, rfl⟩⟩
        · exact updateRest_step tu time r tu' h
    · exact updateRest_step tu time r tu' h
  refine ⟨?_, key.2, ?_⟩
  · rcases r with _ | e
    · have := key.1 rfl
      subst this
      omega
    · have := key.2 e rfl
      omega
  · intro hn
    have hEq := key.1 hn
    subst hEq
    subst hn
    exact ⟨rfl, h⟩

/-- Witness for update_single_step: the hypothesis holds at the concrete
schedule tunerABC queried at time 0, which returns entry 0 and moves the
cursor from -1 to 0. -/
theorem update_single_step_witness :
    (tunerABC.curr_tuning_idx ≤ tunerABC0.curr_tuning_idx
      ∧ tunerABC0.curr_tuning_idx ≤ tunerABC.curr_tuning_idx + 1)
    ∧ (∀ e, some (tdAt 0) = some e →
        tunerABC0.curr_tuning_idx = tunerABC.curr_tuning_idx + 1
          ∧ tunerABC0.tunings = tunerABC.tunings)
    ∧ (some (tdAt 0) = none →
        tunerABC0 = tunerABC ∧ tunerABC0.update 0 = .ok (none, tunerABC0)) :=
  update_single_step tunerABC 0 (some (tdAt 0)) tunerABC0 (by decide)

/-- Claim C3 (amended): once at least one entry has been activated (cursor at
least 0), querying update with a time strictly earlier than the last-activated
entry's time is the fatal monotonicity panic, provided the cursor is not on the
last entry; when the cursor is on the last entry, update instead returns none
without performing the monotonicity check. -/
theorem update_time_regression_fatal_unless_last (tu : Tuner) (time : ℚ)
    (hsz : tu.tunings.length < 2 ^ 64)
    (hact : 0 ≤ tu.curr_tuning_idx)
    (hcur : tu.curr_tuning_idx.toNat < tu.tunings.length) :
    (tu.curr_tuning_idx.toNat ≠ tu.tunings.length - 1 →
      (∀ e, tu.tunings.get? tu.curr_tuning_idx.toNat = some e → time < e.time) →
      tu.update time =
        .error "Time went backwards! Make sure tunings are sorted by increasing time.")
    ∧ (tu.curr_tuning_idx.toNat = tu.tunings.length - 1 →
      tu.update time = .ok (none, tu)) := by
  have hc : ¬ tu.curr_tuning_idx = -1 := by omega
  have hiz : isizeToUsize tu.curr_tuning_idx = tu.curr_tuning_idx.toNat := by
    unfold isizeToUsize
    omega
  constructor
  · intro hlast hmono
    rcases hq : tu.tunings.get? tu.curr_tuning_idx.toNat with _ | e
    · rw [List.get?_eq_none] at hq
      omega
    · have ht := hmono e hq
      unfold Tuner.update Tuner.updateRest
      rw [if_neg hc, hiz, if_neg hlast, hq]
      dsimp only
      rw [if_pos ht]
  · intro hlast
    unfold Tuner.update Tuner.updateRest
    rw [if_neg hc, hiz, if_pos hlast]

/-- Witness for update_time_regression_fatal_unless_last: the schedule with
entries at times 0, 5, 8 and cursor 0, queried at time -1. -/
theorem update_time_regression_witness :
    (tunerABC0.curr_tuning_idx.toNat ≠ tunerABC0.tunings.length - 1 →
      (∀ e, tunerABC0.tunings.get? tunerABC0.curr_tuning_idx.toNat = some e → (-1 : ℚ) < e.time) →
      tunerABC0.update (-1) =
        .error "Time went backwards! Make sure tunings are sorted by increasing time.")
    ∧ (tunerABC0.curr_tuning_idx.toNat = tunerABC0.tunings.length - 1 →
      tunerABC0.update (-1) = .ok (none, tunerABC0)) :=
  update_time_regression_fatal_unless_last tunerABC0 (-1) (by decide) (by decide) (by decide)

/-- Claim C7: when the cached monzo of the semitone class of a key equals the
monzo of the unison 1/1, dispatching a note 12 * n steps away from A4 yields
the monzo whose sole index-0 entry is exactly n; and at any class whose cached
monzo is empty the octave count is pushed as the sole element. -/
theorem noteOn_octave_adjust (n : ℤ) (cm : List (List ℤ)) (key : ℕ)
    (hkey : (key : ℤ) = 69 + 12 * n)
    (hmz : monzo 1 = .ok (some (cm.getD (semitoneMod12 key) []))) :
    noteOnMonzo cm key = [n]
    ∧ (∀ (cm2 : List (List ℤ)) (key2 : ℕ),
        cm2.getD (semitoneMod12 key2) [] = [] →
        noteOnMonzo cm2 key2 = [octavesFromA4 key2]) := by
  have h1 : monzo 1 = .ok (some [0]) := by decide
  rw [h1] at hmz
  injection hmz with hmz1
  injection hmz1 with hmz2
  constructor
  · unfold noteOnMonzo
    rw [← hmz2]
    have hoct : octavesFromA4 key = n := by
      unfold octavesFromA4 edostepsFromA4
      omega
    simp [hoct]
  · intro cm2 key2 hempty
    unfold noteOnMonzo
    rw [hempty]
    simp

/-- Witness for noteOn_octave_adjust: key 93 (two octaves above A4, class A,
cached monzos all equal to the monzo of 1/1) yields the monzo with sole
index-0 entry 2. -/
theorem noteOn_octave_adjust_witness :
    noteOnMonzo (List.replicate 12 [0]) 93 = [2]
    ∧ (∀ (cm2 : List (List ℤ)) (key2 : ℕ),
        cm2.getD (semitoneMod12 key2) [] = [] →
        noteOnMonzo cm2 key2 = [octavesFromA4 key2]) :=
  noteOn_octave_adjust 2 (List.replicate 12 [0]) 93 (by decide) (by decide)

/-- getD after set at the written index. -/
theorem getD_set_self {α : Type} (l : List α) (k : ℕ) (v d : α) (h : k < l.length) :
    (l.set k v).getD k d = v := by
  induction l generalizing k with
  | nil => simp at h
  | cons a t ih =>
    cases k with
    | zero => rfl
    | succ k =>
      simp only [List.set_cons_succ, List.getD_cons_succ]
      exact ih k (by simpa using h)

/-- getD after set at a different index. -/
theorem getD_set_ne {α : Type} (l : List α) (j k : ℕ) (v d : α) (h : j ≠ k) :
    (l.set k v).getD j d = l.getD j d := by
  induction l generalizing j k with
  | nil => rfl
  | cons a t ih =>
    cases k with
    | zero =>
      cases j with
      | zero => exact absurd rfl h
      | succ j => simp only [List.set_cons_zero, List.getD_cons_succ]
    | succ k =>
      cases j with
      | zero => simp only [List.set_cons_succ, List.getD_cons_zero]
      | succ j =>
        simp only [List.set_cons_succ, List.getD_cons_succ]
        exact ih j k (fun hh => h (by rw [hh]))

/-- Folding set-writes at positions different from k leaves slot k unchanged. -/
theorem foldl_set_getD_notmem {α : Type} (pos : ℕ → ℕ) (g : ℕ → α) (l : List ℕ)
    (acc : List α) (k : ℕ) (d : α) (hk : ∀ j ∈ l, pos j ≠ k) :
    (l.foldl (fun a j => a.set (pos j) (g j)) acc).getD k d = acc.getD k d := by
  induction l generalizing acc with
  | nil => rfl
  | cons j t ih =>
    rw [List.foldl_cons]
    rw [ih (acc.set (pos j) (g j)) (fun x hx => hk x (List.mem_cons_of_mem j hx))]
    exact getD_set_ne acc k (pos j) (g j) d
      (fun hh => hk j (List.mem_cons_self j t) hh.symm)

/-- Folding set-writes preserves the accumulator length. -/
theorem foldl_set_length {α : Type} (pos : ℕ → ℕ) (g : ℕ → α) (l : List ℕ)
    (acc : List α) :
    (l.foldl (fun a j => a.set (pos j) (g j)) acc).length = acc.length := by
  induction l generalizing acc with
  | nil => rfl
  | cons j t ih =>
    rw [List.foldl_cons, ih, List.length_set]

/-- Folding set-writes at pairwise distinct positions: slot pos i holds g i. -/
theorem foldl_set_getD_mem {α : Type} (pos : ℕ → ℕ) (g : ℕ → α) (l : List ℕ)
    (acc : List α) (i : ℕ) (d : α) (hnd : l.Nodup) (hi : i ∈ l)
    (hlen : pos i < acc.length)
    (hinj : ∀ j ∈ l, pos j = pos i → j = i) :
    (l.foldl (fun a j => a.set (pos j) (g j)) acc).getD (pos i) d = g i := by
  induction l generalizing acc with
  | nil => cases hi
  | cons j t ih =>
    rw [List.foldl_cons]
    rcases List.mem_cons.mp hi with rfl | hit
    · have hnotin : ∀ x ∈ t, pos x ≠ pos i := by
        intro x hx hpx
        have hxi := hinj x (List.mem_cons_of_mem i hx) hpx
        subst hxi
        exact absurd hx (List.nodup_cons.mp hnd).1
      rw [foldl_set_getD_notmem pos g t (acc.set (pos i) (g i)) (pos i) d hnotin]
      exact getD_set_self acc (pos i) (g i) d hlen
    · exact ih (acc.set (pos j) (g j)) (List.nodup_cons.mp hnd).2 hit
        (by rw [List.length_set]; exact hlen)
        (fun x hx hpx => hinj x (List.mem_cons_of_mem j hx) hpx)

/-- The two consecutive writes of the td loop body collapse into one write of
the final value on any 12-slot accumulator, so the fold can be replaced by a
single-write fold. -/
theorem foldl_td_congr (root : ℕ) (offset : ℚ) (tuning : List ℚ) (l : List ℕ)
    (acc : List ℚ) (hacc : acc.length = 12) :
    l.foldl
      (fun acc i =>
        let semitone := i + root
        let acc1 := acc.set (semitone % 12) (tuning.getD i 0 * offset)
        if 12 ≤ semitone then
          acc1.set (semitone % 12) (acc1.getD (semitone % 12) 0 / 2)
        else acc1) acc
    = l.foldl
      (fun acc i =>
        acc.set ((i + root) % 12)
          (if 12 ≤ i + root then tuning.getD i 0 * offset / 2
           else tuning.getD i 0 * offset)) acc := by
  induction l generalizing acc with
  | nil => rfl
  | cons j t ih =>
    rw [List.foldl_cons, List.foldl_cons]
    have hbody :
        (let semitone := j + root
         let acc1 := acc.set (semitone % 12) (tuning.getD j 0 * offset)
         if 12 ≤ semitone then
           acc1.set (semitone % 12) (acc1.getD (semitone % 12) 0 / 2)
         else acc1)
        = acc.set ((j + root) % 12)
            (if 12 ≤ j + root then tuning.getD j 0 * offset / 2
             else tuning.getD j 0 * offset) := by
      by_cases h : 12 ≤ j + root
      · simp only [if_pos h]
        rw [getD_set_self acc ((j + root) % 12) (tuning.getD j 0 * offset) 0
          (by rw [hacc]; exact Nat.mod_lt _ (by norm_num))]
        rw [List.set_set]
      · simp only [if_neg h]
    rw [hbody]
    exact ih (acc.set ((j + root) % 12) _) (by rw [List.length_set]; exact hacc)

/-- Inversion for TuningData.new: a successful construction is the record built
from the successful per-class results. -/
theorem TuningData.new_ok (centsOf : ℚ → Option ℚ) (tuning : List ℚ) (time : ℚ)
    (d : TuningData) (h : TuningData.new centsOf tuning time = .ok d) :
    ∃ res, mapExcept (newBody centsOf tuning) (List.range 12) = .ok res
      ∧ d = { tuning := tuning, time := time,
              monzos := res.map Prod.fst,
              pitch_bend_percents := res.map Prod.snd } := by
  unfold TuningData.new at h
  cases hm : mapExcept (newBody centsOf tuning) (List.range 12) with
  | error e =>
    rw [hm] at h
    cases h
  | ok res =>
    rw [hm] at h
    injection h with h1
    exact ⟨res, rfl, h1.symm⟩

/-- Claim C8: for every root class, global offset and 12-wide input, the
transposition helper writes input i times offset at output slot
(i + root) % 12, halved (dropped one octave) exactly when i + root wrapped
past 12; and this array is the tuning field of the TuningData the td helper
builds. -/
theorem td_transposes (root : ℕ) (offset : ℚ) (tuning : List ℚ) (i : ℕ)
    (hr : root < 12) (hi : i < 12) :
    (tdTuningArray root offset tuning).getD ((i + root) % 12) 0 =
      (if i + root < 12 then tuning.getD i 0 * offset
       else tuning.getD i 0 * offset / 2)
    ∧ (∀ centsOf time d, td centsOf time root offset tuning = .ok d →
        d.tuning = tdTuningArray root offset tuning) := by
  constructor
  · rw [tdTuningArray,
      foldl_td_congr root offset tuning (List.range 12) (List.replicate 12 0)
        (List.length_replicate 12 0)]
    rw [foldl_set_getD_mem (fun j => (j + root) % 12)
      (fun j => if 12 ≤ j + root then tuning.getD j 0 * offset / 2
                else tuning.getD j 0 * offset)
      (List.range 12) (List.replicate 12 0) i 0
      (List.nodup_range 12) (List.mem_range.mpr hi)
      (by rw [List.length_replicate]; exact Nat.mod_lt _ (by norm_num))
      (by
        intro j hj hpj
        have hj12 := List.mem_range.mp hj
        have hpj2 : (j + root) % 12 = (i + root) % 12 := hpj
        omega)]
    by_cases h : 12 ≤ i + root
    · rw [if_pos h, if_neg (by omega)]
    · rw [if_neg h, if_pos (by omega)]
  · intro centsOf time d hd
    unfold td at hd
    rw [if_pos hr] at hd
    obtain ⟨res, hres, hdval⟩ := TuningData.new_ok centsOf _ time d hd
    rw [hdval]

/-- Witness for td_transposes: root 3, class i = 10 wraps past the octave, so
slot (10 + 3) % 12 = 1 receives half of input 10 times offset. -/
theorem td_transposes_witness :
    ((tdTuningArray 3 (2 : ℚ) (List.replicate 12 1)).getD ((10 + 3) % 12) 0 =
      (if 10 + 3 < 12 then (List.replicate 12 (1 : ℚ)).getD 10 0 * 2
       else (List.replicate 12 (1 : ℚ)).getD 10 0 * 2 / 2))
    ∧ (∀ centsOf time d, td centsOf time 3 2 (List.replicate 12 1) = .ok d →
        d.tuning = tdTuningArray 3 2 (List.replicate 12 1)) :=
  td_transposes 3 2 (List.replicate 12 1) 10 (by decide) (by decide)

/-- exceptIsOk is success existence. -/
theorem exceptIsOk_iff {α : Type} (x : Except String α) :
    exceptIsOk x = true ↔ ∃ a, x = .ok a := by
  cases x with
  | error e =>
    constructor
    · intro h
      cases h
    · intro ⟨a, ha⟩
      cases ha
  | ok a => exact ⟨fun _ => ⟨a, rfl⟩, fun _ => rfl⟩

/-- Unfolding newBody when the monzo computation succeeds. -/
theorem newBody_of_monzo_ok (centsOf : ℚ → Option ℚ) (tuning : List ℚ) (i : ℕ)
    (m : Option (List ℤ)) (hm : monzo (tuning.getD i 0) = .ok m) :
    newBody centsOf tuning i =
      match centsOf (tuning.getD i 0) with
      | none => .ok (m, none)
      | some cents =>
        if pbRangePercent cents i > 1 ∨ pbRangePercent cents i < -1 then
          .error "Pitch bend range exceeded"
        else
          .ok (m, some (pbRangePercent cents i)) := by
  unfold newBody
  rw [hm]

/-- mapExcept succeeds when every element computation succeeds. -/
theorem mapExcept_ok_of_all {α : Type} (f : ℕ → Except String α) (l : List ℕ)
    (h : ∀ i ∈ l, ∃ x, f i = .ok x) : ∃ xs, mapExcept f l = .ok xs := by
  induction l with
  | nil => exact ⟨[], rfl⟩
  | cons i is ih =>
    obtain ⟨x, hx⟩ := h i (List.mem_cons_self i is)
    obtain ⟨xs, hxs⟩ := ih (fun j hj => h j (List.mem_cons_of_mem i hj))
    refine ⟨x :: xs, ?_⟩
    unfold mapExcept
    rw [hx, hxs]

/-- A successful mapExcept determines each element computation pointwise. -/
theorem mapExcept_ok_get {α : Type} (f : ℕ → Except String α) (l : List ℕ)
    (xs : List α) (h : mapExcept f l = .ok xs) :
    ∀ k i, l.get? k = some i → ∃ x, xs.get? k = some x ∧ f i = .ok x := by
  induction l generalizing xs with
  | nil =>
    intro k i hk
    cases hk
  | cons j t ih =>
    intro k i hk
    unfold mapExcept at h
    cases hf : f j with
    | error e =>
      rw [hf] at h
      cases h
    | ok a =>
      rw [hf] at h
      cases hrest : mapExcept f t with
      | error e =>
        rw [hrest] at h
        cases h
      | ok rest =>
        rw [hrest] at h
        injection h with h1
        subst h1
        cases k with
        | zero =>
          injection hk with hk1
          subst hk1
          exact ⟨a, rfl, hf⟩
        | succ k => exact ih rest hrest k i hk

/-- Claim C5: provided no class panics inside the monzo computation, entry
construction succeeds exactly when, for every class whose ratio has a cents
value, the normalized bend (cents offset over 100 over PB_RANGE) lies in the
closed interval [-1, 1] (so exactly plus or minus 1 is accepted and anything
strictly outside is a construction-time panic); and on success the stored
normalized bend is exactly the computed value, never clamped. -/
theorem new_bend_accepted_iff (centsOf : ℚ → Option ℚ) (tuning : List ℚ) (time : ℚ)
    (hmz : ∀ i, i < 12 → exceptIsOk (monzo (tuning.getD i 0)) = true) :
    ((∃ d, TuningData.new centsOf tuning time = .ok d) ↔
      ∀ i, i < 12 → ∀ c, centsOf (tuning.getD i 0) = some c →
        -1 ≤ pbRangePercent c i ∧ pbRangePercent c i ≤ 1)
    ∧ (∀ d, TuningData.new centsOf tuning time = .ok d →
        ∀ i, i < 12 → ∀ c, centsOf (tuning.getD i 0) = some c →
          d.pitch_bend_percents.get? i = some (some (pbRangePercent c i))) := by
  constructor
  · constructor
    · intro ⟨d, hd⟩ i hi c hc
      obtain ⟨res, hres, _⟩ := TuningData.new_ok centsOf tuning time d hd
      obtain ⟨x, _, hfx⟩ :=
        mapExcept_ok_get (newBody centsOf tuning) (List.range 12) res hres i i
          (List.get?_range hi)
      obtain ⟨m, hm⟩ := (exceptIsOk_iff (monzo (tuning.getD i 0))).mp (hmz i hi)
      rw [newBody_of_monzo_ok centsOf tuning i m hm, hc] at hfx
      dsimp only at hfx
      by_cases hpb : pbRangePercent c i > 1 ∨ pbRangePercent c i < -1
      · rw [if_pos hpb] at hfx
        cases hfx
      · push_neg at hpb
        exact ⟨hpb.2, hpb.1⟩
    · intro hall
      have hAllOk : ∀ i ∈ List.range 12, ∃ x, newBody centsOf tuning i = .ok x := by
        intro i hi'
        have hi12 := List.mem_range.mp hi'
        obtain ⟨m, hm⟩ := (exceptIsOk_iff (monzo (tuning.getD i 0))).mp (hmz i hi12)
        rw [newBody_of_monzo_ok centsOf tuning i m hm]
        cases hc : centsOf (tuning.getD i 0) with
        | none => exact ⟨(m, none), rfl⟩
        | some c =>
          have hin := hall i hi12 c hc
          dsimp only
          rw [if_neg (by
            intro hcon
            rcases hcon with hcon | hcon
            · exact absurd hin.2 (not_le.mpr hcon)
            · exact absurd hin.1 (not_le.mpr hcon))]
          exact ⟨(m, some (pbRangePercent c i)), rfl⟩
      obtain ⟨xs, hxs⟩ :=
        mapExcept_ok_of_all (newBody centsOf tuning) (List.range 12) hAllOk
      refine ⟨{ tuning := tuning, time := time,
                monzos := xs.map Prod.fst,
                pitch_bend_percents := xs.map Prod.snd }, ?_⟩
      unfold TuningData.new
      rw [hxs]
  · intro d hd i hi c hc
    obtain ⟨res, hres, hdval⟩ := TuningData.new_ok centsOf tuning time d hd
    obtain ⟨x, hx, hfx⟩ :=
      mapExcept_ok_get (newBody centsOf tuning) (List.range 12) res hres i i
        (List.get?_range hi)
    obtain ⟨m, hm⟩ := (exceptIsOk_iff (monzo (tuning.getD i 0))).mp (hmz i hi)
    rw [newBody_of_monzo_ok centsOf tuning i m hm, hc] at hfx
    dsimp only at hfx
    have hpb : ¬(pbRangePercent c i > 1 ∨ pbRangePercent c i < -1) := by
      intro hcon
      rw [if_pos hcon] at hfx
      cases hfx
    rw [if_neg hpb] at hfx
    injection hfx with hfx1
    rw [hdval]
    show (res.map Prod.snd).get? i = some (some (pbRangePercent c i))
    rw [List.get?_map, hx, ← hfx1]
    rfl

/-- Witness for new_bend_accepted_iff: twelve ratios 1..12, with a cents
assignment giving class 0 the normalized bend exactly 1 (the accepted
boundary) and every other class bend 0; all monzo computations succeed. -/
theorem new_bend_accepted_iff_witness :
    ((∃ d, TuningData.new
        (fun q => if q = 1 then some 400 else some (100 * (q - 1)))
        [1, 2, 3, 4, 5, 6, 7, 8, 9, 10, 11, 12] 0 = .ok d) ↔
      ∀ i, i < 12 → ∀ c,
        (fun q : ℚ => if q = 1 then some 400 else some (100 * (q - 1)))
            (([1, 2, 3, 4, 5, 6, 7, 8, 9, 10, 11, 12] : List ℚ).getD i 0) = some c →
        -1 ≤ pbRangePercent c i ∧ pbRangePercent c i ≤ 1)
    ∧ (∀ d, TuningData.new
        (fun q => if q = 1 then some 400 else some (100 * (q - 1)))
        [1, 2, 3, 4, 5, 6, 7, 8, 9, 10, 11, 12] 0 = .ok d →
        ∀ i, i < 12 → ∀ c,
          (fun q : ℚ => if q = 1 then some 400 else some (100 * (q - 1)))
              (([1, 2, 3, 4, 5, 6, 7, 8, 9, 10, 11, 12] : List ℚ).getD i 0) = some c →
          d.pitch_bend_percents.get? i = some (some (pbRangePercent c i))) :=
  new_bend_accepted_iff
    (fun q => if q = 1 then some 400 else some (100 * (q - 1)))
    [1, 2, 3, 4, 5, 6, 7, 8, 9, 10, 11, 12] 0 (by decide)

/-- getD with default 0 on a replicate of zeros. -/
theorem getD_replicate_zero (k j : ℕ) : (List.replicate k (0 : ℤ)).getD j 0 = 0 := by
  induction k generalizing j with
  | zero => cases j <;> rfl
  | succ k ih =>
    cases j with
    | zero => rfl
    | succ j =>
      rw [List.replicate_succ, List.getD_cons_succ]
      exact ih j

/-- Growing a vector with zeros does not change any getD-with-default-0. -/
theorem getD_append_replicate_zero (l : List ℤ) (k j : ℕ) :
    (l ++ List.replicate k 0).getD j 0 = l.getD j 0 := by
  induction l generalizing j with
  | nil =>
    rw [List.nil_append]
    rw [getD_replicate_zero]
    cases j <;> rfl
  | cons a t ih =>
    cases j with
    | zero => rfl
    | succ j =>
      rw [List.cons_append, List.getD_cons_succ, List.getD_cons_succ]
      exact ih j

/-- primeIndex is the prime-counting function. -/
theorem primeIndex_eq_count (p : ℕ) : primeIndex p = Nat.count Nat.Prime p := by
  rw [Nat.count, List.countP_eq_length_filter]
  rfl

/-- primeIndex is strictly monotone from a prime to any larger number. -/
theorem primeIndex_lt_of_lt (p q : ℕ) (hp : p.Prime) (hlt : p < q) :
    primeIndex p < primeIndex q := by
  rw [primeIndex_eq_count, primeIndex_eq_count]
  have h1 : Nat.count Nat.Prime (p + 1) = Nat.count Nat.Prime p + 1 := by
    rw [Nat.count_succ, if_pos hp]
  have h2 : Nat.count Nat.Prime (p + 1) ≤ Nat.count Nat.Prime q :=
    Nat.count_monotone Nat.Prime hlt
  omega

/-- primeIndex is injective on primes. -/
theorem primeIndex_inj (p q : ℕ) (hp : p.Prime) (hq : q.Prime)
    (h : primeIndex p = primeIndex q) : p = q := by
  rcases lt_trichotomy p q with hlt | heq | hgt
  · exact absurd h (Nat.ne_of_lt (primeIndex_lt_of_lt p q hp hlt))
  · exact heq
  · exact absurd h.symm (Nat.ne_of_lt (primeIndex_lt_of_lt q p hq hgt))

/-- Index 0 of the prime table is the prime 2. -/
theorem primeIndex_two : primeIndex 2 = 0 := by decide

/-- Every prime other than 2 has a positive prime index. -/
theorem primeIndex_pos_of_ne_two (p : ℕ) (hp : p.Prime) (h2 : p ≠ 2) :
    0 < primeIndex p := by
  have h3 : 3 ≤ p := by
    have := hp.two_le
    omega
  have hmono : Nat.count Nat.Prime 3 ≤ Nat.count Nat.Prime p :=
    Nat.count_monotone Nat.Prime h3
  have h31 : Nat.count Nat.Prime 3 = 1 := by decide
  rw [primeIndex_eq_count]
  omega

/-- One unfolding of applyFactors on a table-resident head factor. -/
theorem applyFactors_cons (s : ℤ) (p e : ℕ) (rest : List (ℕ × ℕ)) (mz : List ℤ)
    (o : ℤ) (hpt : inPrimeTable p) :
    applyFactors s ((p, e) :: rest) (mz, o) =
      applyFactors s rest
        ((if mz.length ≤ primeIndex p
          then mz ++ List.replicate (primeIndex p + 1 - mz.length) 0
          else mz).set (primeIndex p)
            ((if mz.length ≤ primeIndex p
              then mz ++ List.replicate (primeIndex p + 1 - mz.length) 0
              else mz).getD (primeIndex p) 0 + s * e),
         if USE_OCT_RED_MONZOS ∧ p ≠ 2 then o + (primeOctaves p : ℤ) * (s * e)
         else o) := by
  conv_lhs => rw [applyFactors]
  rw [if_pos hpt]

/-- Running one factor pass over a table-resident factor list: the vector
accumulates sign times the per-index exponent totals, the octave offset
accumulates sign times the octave total, and the vector never shrinks. -/
theorem applyFactors_spec (s : ℤ) (F : List (ℕ × ℕ)) (mz : List ℤ) (o : ℤ)
    (hF : ∀ pe ∈ F, inPrimeTable pe.1) :
    ∃ mz2, applyFactors s F (mz, o) = .ok (mz2, o + s * octsum F)
      ∧ (∀ j, mz2.getD j 0 = mz.getD j 0 + s * exps F j)
      ∧ mz.length ≤ mz2.length := by
  induction F generalizing mz o with
  | nil =>
    refine ⟨mz, ?_, ?_, le_refl _⟩
    · unfold applyFactors octsum
      simp
    · intro j
      unfold exps
      simp
  | cons pe rest ih =>
    obtain ⟨p, e⟩ := pe
    have hpt : inPrimeTable p := hF (p, e) (List.mem_cons_self _ _)
    set mzg : List ℤ :=
      if mz.length ≤ primeIndex p
      then mz ++ List.replicate (primeIndex p + 1 - mz.length) 0
      else mz with hmzg
    have hgrow : mz.length ≤ mzg.length ∧ primeIndex p < mzg.length := by
      rw [hmzg]
      by_cases hc : mz.length ≤ primeIndex p
      · rw [if_pos hc]
        rw [List.length_append, List.length_replicate]
        omega
      · rw [if_neg hc]
        omega
    have hgetg : ∀ j, mzg.getD j 0 = mz.getD j 0 := by
      intro j
      rw [hmzg]
      by_cases hc : mz.length ≤ primeIndex p
      · rw [if_pos hc, getD_append_replicate_zero]
      · rw [if_neg hc]
    set mzs : List ℤ := mzg.set (primeIndex p) (mzg.getD (primeIndex p) 0 + s * e)
      with hmzs
    have hgets : ∀ j, mzs.getD j 0 =
        mz.getD j 0 + s * (if primeIndex p = j then (e : ℤ) else 0) := by
      intro j
      rw [hmzs]
      by_cases hj : j = primeIndex p
      · subst hj
        rw [getD_set_self mzg (primeIndex p) _ 0 hgrow.2, hgetg (primeIndex p),
          if_pos rfl]
      · rw [getD_set_ne mzg j (primeIndex p) _ 0 hj, hgetg j,
          if_neg (fun hh => hj hh.symm)]
        ring
    obtain ⟨mz2, heq, hget, hlen⟩ :=
      ih mzs (if USE_OCT_RED_MONZOS ∧ p ≠ 2 then o + (primeOctaves p : ℤ) * (s * e) else o)
        (fun pe hpe => hF pe (List.mem_cons_of_mem _ hpe))
    refine ⟨mz2, ?_, ?_, ?_⟩
    · rw [applyFactors_cons s p e rest mz o hpt, ← hmzg, ← hmzs, heq]
      have hoct : (if USE_OCT_RED_MONZOS ∧ p ≠ 2
            then o + (primeOctaves p : ℤ) * (s * e) else o) + s * octsum rest
          = o + s * octsum ((p, e) :: rest) := by
        unfold octsum
        rw [List.map_cons, List.sum_cons]
        by_cases hp2 : p = 2
        · rw [if_neg (by simp [hp2]), if_neg (by simp [hp2])]
          ring
        · rw [if_pos (by simp [USE_OCT_RED_MONZOS, hp2]), if_pos hp2]
          ring
      rw [hoct]
    · intro j
      rw [hget j, hgets j]
      unfold exps
      rw [List.map_cons, List.sum_cons]
      ring
    · calc mz.length ≤ mzg.length := hgrow.1
        _ = mzs.length := by rw [hmzs, List.length_set]
        _ ≤ mz2.length := hlen

/-- Counting the k below n with k + 1 at most e. -/
theorem length_filter_range_le (e n : ℕ) :
    ((List.range n).filter (fun k => k + 1 ≤ e)).length = min e n := by
  induction n with
  | zero => simp
  | succ n ih =>
    rw [List.range_succ, List.filter_append, List.length_append, ih]
    by_cases h : n + 1 ≤ e <;> simp [h] <;> omega

/-- primeExp agrees with Nat.factorization on primes and positive arguments. -/
theorem primeExp_eq_factorization (p n : ℕ) (hp : p.Prime) (hn : 0 < n) :
    primeExp p n = n.factorization p := by
  unfold primeExp
  have hfe : (List.range n).filter (fun k => p ^ (k + 1) ∣ n)
      = (List.range n).filter (fun k => k + 1 ≤ n.factorization p) :=
    List.filter_congr (fun k _ => by
      simp only [decide_eq_decide]
      exact hp.pow_dvd_iff_le_factorization hn.ne')
  rw [hfe, length_filter_range_le]
  have hlt : n.factorization p < n := Nat.factorization_lt p hn.ne'
  omega

/-- Membership in the prime factor base list of primeFactorsWithExp. -/
theorem mem_factorBase (n p : ℕ) (hn : 0 < n) :
    p ∈ (List.range (n + 1)).filter (fun r => Nat.Prime r ∧ r ∣ n)
      ↔ p.Prime ∧ p ∣ n := by
  rw [List.mem_filter, List.mem_range]
  constructor
  · intro ⟨_, h2⟩
    simpa using h2
  · intro ⟨h1, h2⟩
    refine ⟨?_, by simp [h1, h2]⟩
    have := Nat.le_of_dvd hn h2
    omega

/-- The prime factor base list never repeats. -/
theorem nodup_factorBase (n : ℕ) :
    ((List.range (n + 1)).filter (fun r => Nat.Prime r ∧ r ∣ n)).Nodup :=
  (List.nodup_range (n + 1)).filter _

/-- Summing an indicator of equality with p over a duplicate-free list. -/
theorem sum_map_ite_mem (L : List ℕ) (hnd : L.Nodup) (f : ℕ → ℤ) (p : ℕ) :
    (L.map (fun q => if q = p then f q else 0)).sum = if p ∈ L then f p else 0 := by
  induction L with
  | nil => simp
  | cons q t ih =>
    rw [List.map_cons, List.sum_cons, ih (List.nodup_cons.mp hnd).2]
    by_cases hqp : q = p
    · subst hqp
      have hq : q ∉ t := (List.nodup_cons.mp hnd).1
      rw [if_pos rfl, if_neg hq, if_pos (List.mem_cons_self q t)]
      ring
    · rw [if_neg hqp]
      by_cases hpt : p ∈ t
      · rw [if_pos hpt, if_pos (List.mem_cons_of_mem q hpt)]
        ring
      · rw [if_neg hpt, if_neg (by
          intro hcon
          rcases List.mem_cons.mp hcon with hc | hc
          · exact hqp hc.symm
          · exact hpt hc)]
        ring

/-- The per-index exponent total of the factor list of n is the factorization
exponent of the corresponding prime. -/
theorem exps_factorList (n p : ℕ) (hp : p.Prime) (hn : 0 < n) :
    exps (primeFactorsWithExp n) (primeIndex p) = (n.factorization p : ℤ) := by
  unfold exps primeFactorsWithExp
  rw [List.map_map]
  have hcongr : ∀ q ∈ (List.range (n + 1)).filter (fun r => Nat.Prime r ∧ r ∣ n),
      ((fun pe : ℕ × ℕ => if primeIndex pe.1 = primeIndex p then (pe.2 : ℤ) else 0) ∘
        (fun r => (r, primeExp r n))) q
        = (fun q => if q = p then (primeExp q n : ℤ) else 0) q := by
    intro q hq
    have hqp : q.Prime := ((mem_factorBase n q hn).mp hq).1
    simp only [Function.comp]
    by_cases he : q = p
    · rw [if_pos (by rw [he]), if_pos he]
    · rw [if_neg (fun hh => he (primeIndex_inj q p hqp hp hh)), if_neg he]
  rw [List.map_congr_left hcongr]
  rw [sum_map_ite_mem _ (nodup_factorBase n) _ p]
  by_cases hmem : p ∈ (List.range (n + 1)).filter (fun r => Nat.Prime r ∧ r ∣ n)
  · rw [if_pos hmem, primeExp_eq_factorization p n hp hn]
  · rw [if_neg hmem]
    have hnd : ¬ p ∣ n := fun hdvd => hmem ((mem_factorBase n p hn).mpr ⟨hp, hdvd⟩)
    rw [Nat.factorization_eq_zero_of_not_dvd hnd]
    rfl

/-- The octave total of the factor list of n as a sum over the prime factors. -/
theorem octsum_factorList (n : ℕ) (hn : 0 < n) :
    octsum (primeFactorsWithExp n) =
      ∑ r ∈ n.primeFactors,
        (if r ≠ 2 then (primeOctaves r : ℤ) * n.factorization r else 0) := by
  unfold octsum primeFactorsWithExp
  rw [List.map_map]
  have hcongr : ∀ q ∈ (List.range (n + 1)).filter (fun r => Nat.Prime r ∧ r ∣ n),
      ((fun pe : ℕ × ℕ => if pe.1 ≠ 2 then (primeOctaves pe.1 : ℤ) * pe.2 else 0) ∘
        (fun r => (r, primeExp r n))) q
        = (fun q => if q ≠ 2 then (primeOctaves q : ℤ) * n.factorization q else 0) q := by
    intro q hq
    obtain ⟨hqp, _⟩ := (mem_factorBase n q hn).mp hq
    simp only [Function.comp]
    rw [primeExp_eq_factorization q n hqp hn]
  rw [List.map_congr_left hcongr]
  have hfin : ((List.range (n + 1)).filter (fun r => Nat.Prime r ∧ r ∣ n)).toFinset
      = n.primeFactors := by
    apply Finset.ext
    intro r
    rw [List.mem_toFinset, mem_factorBase n r hn,
      Nat.mem_primeFactors_of_ne_zero hn.ne']
  rw [← List.sum_toFinset _ (nodup_factorBase n), hfin]

/-- The difference of the octave totals of the numerator and denominator factor
lists is the spec-side octave correction. -/
theorem octsum_sub_eq_octCorrection (q : ℚ) (hq : 0 < q) :
    octsum (primeFactorsWithExp q.num.natAbs) - octsum (primeFactorsWithExp q.den)
      = octCorrection q := by
  have hnum : 0 < q.num.natAbs := Int.natAbs_pos.mpr (by
    have := Rat.num_pos.mpr hq
    omega)
  have hden : 0 < q.den := q.pos
  rw [octsum_factorList _ hnum, octsum_factorList _ hden]
  have hvan1 : ∀ r ∈ q.num.natAbs.primeFactors ∪ q.den.primeFactors,
      r ∉ q.num.natAbs.primeFactors →
      (if r ≠ 2 then (primeOctaves r : ℤ) * q.num.natAbs.factorization r else 0)
        = 0 := by
    intro r _ hnr
    have hz : q.num.natAbs.factorization r = 0 :=
      Finsupp.not_mem_support_iff.mp (by
        rw [Nat.support_factorization]
        exact hnr)
    rw [hz]
    simp
  have hvan2 : ∀ r ∈ q.num.natAbs.primeFactors ∪ q.den.primeFactors,
      r ∉ q.den.primeFactors →
      (if r ≠ 2 then (primeOctaves r : ℤ) * q.den.factorization r else 0) = 0 := by
    intro r _ hnr
    have hz : q.den.factorization r = 0 :=
      Finsupp.not_mem_support_iff.mp (by
        rw [Nat.support_factorization]
        exact hnr)
    rw [hz]
    simp
  rw [Finset.sum_subset Finset.subset_union_left hvan1,
    Finset.sum_subset Finset.subset_union_right hvan2,
    ← Finset.sum_sub_distrib]
  unfold octCorrection netExp
  apply Finset.sum_congr rfl
  intro r _
  by_cases h2 : r ≠ 2
  · rw [if_pos h2, if_pos h2, if_pos h2]
    unfold primeOctaves
    ring
  · rw [if_neg h2, if_neg h2, if_neg h2]
    ring

/-- getD with default 0 on the initial one-slot vector. -/
theorem getD_singleton_zero (j : ℕ) : ([0] : List ℤ).getD j 0 = 0 := by
  cases j <;> rfl

/-- Claim C6: for every strictly positive rational whose numerator and
denominator factor over the prime table, monzo succeeds and the resulting
vector holds, at the table index of each prime, the signed net exponent of
that prime (numerator positive, denominator negative), except that index 0
(the index of the prime 2) additionally carries the octave-reduction
correction; and monzo returns the absent value (ok none) exactly for the
sentinel 0. -/
theorem monzo_characterized :
    (∀ q : ℚ, 0 < q →
      (∀ r ∈ q.num.natAbs.primeFactors ∪ q.den.primeFactors, inPrimeTable r) →
      ∃ m, monzo q = .ok (some m)
        ∧ ∀ r, Nat.Prime r → inPrimeTable r →
            m.getD (primeIndex r) 0
              = netExp q r + (if r = 2 then octCorrection q else 0))
    ∧ (∀ q : ℚ, monzo q = .ok none ↔ q = 0) := by
  constructor
  · intro q hq hTable
    have hq0 : ¬ q = 0 := ne_of_gt hq
    have hqnum : 0 < q.num := Rat.num_pos.mpr hq
    have hnum : ¬ q.num < 0 := by omega
    have hposnum : 0 < q.num.natAbs := Int.natAbs_pos.mpr (by omega)
    have hposden : 0 < q.den := q.pos
    have hFnum : ∀ pe ∈ primeFactorsWithExp q.num.natAbs, inPrimeTable pe.1 := by
      intro pe hpe
      unfold primeFactorsWithExp at hpe
      obtain ⟨r, hr, hre⟩ := List.mem_map.mp hpe
      obtain ⟨hrp, hrd⟩ := (mem_factorBase _ r hposnum).mp hr
      have hpe1 : pe.1 = r := by rw [← hre]
      rw [hpe1]
      exact hTable r (Finset.mem_union_left _
        ((Nat.mem_primeFactors_of_ne_zero hposnum.ne').mpr ⟨hrp, hrd⟩))
    have hFden : ∀ pe ∈ primeFactorsWithExp q.den, inPrimeTable pe.1 := by
      intro pe hpe
      unfold primeFactorsWithExp at hpe
      obtain ⟨r, hr, hre⟩ := List.mem_map.mp hpe
      obtain ⟨hrp, hrd⟩ := (mem_factorBase _ r hposden).mp hr
      have hpe1 : pe.1 = r := by rw [← hre]
      rw [hpe1]
      exact hTable r (Finset.mem_union_right _
        ((Nat.mem_primeFactors_of_ne_zero hposden.ne').mpr ⟨hrp, hrd⟩))
    obtain ⟨mzA, hA, hgetA, hlenA⟩ :=
      applyFactors_spec 1 (primeFactorsWithExp q.num.natAbs) [0] 0 hFnum
    obtain ⟨mzB, hB, hgetB, hlenB⟩ :=
      applyFactors_spec (-1) (primeFactorsWithExp q.den) mzA
        (0 + 1 * octsum (primeFactorsWithExp q.num.natAbs)) hFden
    have hmz : monzo q = .ok (some (mzB.set 0 (mzB.getD 0 0 +
        (0 + 1 * octsum (primeFactorsWithExp q.num.natAbs)
          + -1 * octsum (primeFactorsWithExp q.den))))) := by
      unfold monzo
      rw [if_neg hq0, if_neg hnum, hA]
      dsimp only
      rw [hB]
    refine ⟨_, hmz, ?_⟩
    intro r hrP hrT
    have hlen0 : 0 < mzB.length := by
      have h1 : ([0] : List ℤ).length = 1 := rfl
      omega
    have hoct := octsum_sub_eq_octCorrection q hq
    have hEn := exps_factorList q.num.natAbs r hrP hposnum
    have hEd := exps_factorList q.den r hrP hposden
    have hgA := hgetA (primeIndex r)
    have hgB := hgetB (primeIndex r)
    have hsing := getD_singleton_zero (primeIndex r)
    by_cases hr2 : r = 2
    · subst hr2
      rw [primeIndex_two] at hEn hEd hgA hgB hsing ⊢
      rw [getD_set_self mzB 0 _ 0 hlen0, if_pos rfl]
      unfold netExp
      omega
    · have hpir : 0 < primeIndex r := primeIndex_pos_of_ne_two r hrP hr2
      rw [getD_set_ne mzB (primeIndex r) 0 _ 0 (by omega), if_neg hr2]
      unfold netExp
      omega
  · intro q
    constructor
    · intro h
      by_contra hne
      unfold monzo at h
      rw [if_neg hne] at h
      by_cases hn : q.num < 0
      · rw [if_pos hn] at h
        cases h
      · rw [if_neg hn] at h
        cases hA : applyFactors 1 (primeFactorsWithExp q.num.natAbs) ([0], 0) with
        | error e =>
          rw [hA] at h
          cases h
        | ok pr =>
          obtain ⟨mz1, o1⟩ := pr
          rw [hA] at h
          dsimp only at h
          cases hB : applyFactors (-1) (primeFactorsWithExp q.den) (mz1, o1) with
          | error e =>
            rw [hB] at h
            cases h
          | ok pr2 =>
            obtain ⟨mz2, o2⟩ := pr2
            rw [hB] at h
            dsimp only at h
            injection h with h1
            cases h1
    · rintro rfl
      unfold monzo
      rw [if_pos rfl]

/-- Witness for monzo_characterized: the fifth 3/2 (both primes in the table)
and the sentinel clause at the non-sentinel 1. -/
theorem monzo_characterized_witness :
    (∃ m, monzo (Rat.divInt 3 2) = .ok (some m)
      ∧ ∀ r, Nat.Prime r → inPrimeTable r →
          m.getD (primeIndex r) 0
            = netExp (Rat.divInt 3 2) r
              + (if r = 2 then octCorrection (Rat.divInt 3 2) else 0))
    ∧ (monzo 1 = .ok none ↔ (1 : ℚ) = 0) :=
  ⟨monzo_characterized.1 (Rat.divInt 3 2) (by decide)
      (by
        intro r hr
        have hnum : (Rat.divInt 3 2).num.natAbs = 3 := by decide
        have hden : (Rat.divInt 3 2).den = 2 := by decide
        rw [hnum, hden] at hr
        rw [Nat.Prime.primeFactors (show Nat.Prime 3 by norm_num),
          Nat.Prime.primeFactors (show Nat.Prime 2 by norm_num)] at hr
        have hr32 : r = 3 ∨ r = 2 := by simpa using hr
        rcases hr32 with rfl | rfl <;> decide),
    monzo_characterized.2 1⟩
